import Mathlib

/-!
Verification of `Script2.py`: a tool that reads raw git commit objects,
builds the commit ancestry graph, and renders it as PlantUML text.

The embedding is shallow: Python strings become `String` / `List Char`,
the filesystem and the object store become finite association lists,
exceptions become `Except` / explicit result constructors, and the
unbounded `while` loop of `get_commit_graph` becomes a fuelled loop
together with a proof that the chosen fuel always suffices.
-/

set_option maxRecDepth 4000

namespace Script2

/-! ### Python string primitives -/

/-- The whitespace characters of Python `str.strip()` / `str.split()`. -/
def isPyWS (c : Char) : Bool :=
  c = ' ' || c = '\t' || c = '\n' || c = '\r' || c = '\x0b' || c = '\x0c'

/-- Python `s.split(sep)` for a one-character separator, on char lists.
Mirrors Python's explicit-separator splitting, including the empty pieces:
`"".split(c) = [""]` and separators at the ends produce empty chunks. -/
def splitOnChar (sep : Char) : List Char → List (List Char)
  | [] => [[]]
  | c :: rest =>
    let r := splitOnChar sep rest
    if c = sep then [] :: r else (c :: r.headD []) :: r.tail

/-- Python `s.startswith(pre)` on char lists. -/
def charsStartWith : List Char → List Char → Bool
  | [], _ => true
  | _ :: _, [] => false
  | p :: ps, c :: cs => if p = c then charsStartWith ps cs else false

/-- Right side of Python `str.strip()`: drop trailing whitespace. -/
def pyRStripChars (l : List Char) : List Char :=
  (l.reverse.dropWhile isPyWS).reverse

/-- Python `str.strip()`: drop leading and trailing whitespace. -/
def pyStripChars (l : List Char) : List Char :=
  pyRStripChars (l.dropWhile isPyWS)

/-- Python `str.split()` with no separator (used via `"".join(s.split())` in
the renderer): runs of non-whitespace characters, with the accumulator
holding the chunk currently being built. -/
def splitWSAux : List Char → List Char → List (List Char)
  | [], cur => if cur = [] then [] else [cur]
  | c :: rest, cur =>
    if isPyWS c then
      if cur = [] then splitWSAux rest [] else cur :: splitWSAux rest []
    else
      splitWSAux rest (cur ++ [c])

/-- Python `s.split()` (no separator). -/
def pySplitWS (l : List Char) : List (List Char) :=
  splitWSAux l []

/-- Python `"".join(chunks)`. -/
def joinChunks : List (List Char) → List Char
  | [] => []
  | chunk :: rest => chunk ++ joinChunks rest

/-- The renderer's label transform: `"".join(message.split())`, i.e. the
message with all whitespace removed (Script2.py lines 65 and 69). -/
def stripAllWS (s : String) : String :=
  String.mk (joinChunks (pySplitWS s.data))

/-! ### The commit parser (`get_commit_data`, Script2.py lines 29-42) -/

/-- The literal `"parent "` token tested by `line.startswith("parent ")`. -/
def parentTok : List Char := "parent ".data

/-- The header/message loop of `get_commit_data` (Script2.py lines 30-41),
with the Python locals `parents`, `message`, `is_message` passed explicitly.
Python's `line.split(" ")[1]` raises `IndexError` when index 1 is absent;
that is the `none` result. -/
def parseLinesC : List (List Char) → List (List Char) → List Char → Bool →
    Option (List (List Char) × List Char)
  | [], parents, message, _ => some (parents, message)
  | line :: rest, parents, message, is_message =>
    if is_message then
      parseLinesC rest parents (message ++ line ++ ['\n']) is_message
    else if charsStartWith parentTok line then
      match (splitOnChar ' ' line)[1]? with
      | none => none
      | some field => parseLinesC rest (parents ++ [field]) message is_message
    else if line = [] then
      parseLinesC rest parents message true
    else
      parseLinesC rest parents message is_message

/-- The parsing part of `get_commit_data` (Script2.py lines 29-42): split the
decompressed text on newlines, run the header/message loop, return
`(parents, message.strip())`. -/
def parseCommit (s : String) : Option (List String × String) :=
  match parseLinesC (splitOnChar '\n' s.data) [] [] false with
  | none => none
  | some (parents, message) =>
      some (parents.map String.mk, String.mk (pyStripChars message))

/-! ### Derived descriptions of the parser's output -/

/-- The second whitespace-separated field of a header line,
`line.split(" ")[1]` (defaulting, used only where index 1 exists). -/
def parentOf (line : List Char) : List Char :=
  ((splitOnChar ' ' line)[1]?).getD []

/-- Parent fields of the header lines before the first empty line. -/
def headerParents : List (List Char) → List (List Char)
  | [] => []
  | line :: rest =>
    if charsStartWith parentTok line then parentOf line :: headerParents rest
    else if line = [] then []
    else headerParents rest

/-- The lines strictly after the first empty line. -/
def afterEmptyLine : List (List Char) → List (List Char)
  | [] => []
  | line :: rest => if line = [] then rest else afterEmptyLine rest

/-- Whether some line is empty. -/
def hasEmptyLine : List (List Char) → Bool
  | [] => false
  | line :: rest => if line = [] then true else hasEmptyLine rest

/-- Each line followed by a newline, concatenated. -/
def joinNL : List (List Char) → List Char
  | [] => []
  | line :: rest => line ++ '\n' :: joinNL rest

/-- Parents of a commit text, as `parseCommit` extracts them. -/
def parsedParents (s : String) : List String :=
  (headerParents (splitOnChar '\n' s.data)).map String.mk

/-- Message of a commit text, as `parseCommit` extracts it. -/
def parsedMessage (s : String) : String :=
  String.mk (pyStripChars (joinNL (afterEmptyLine (splitOnChar '\n' s.data))))

/-! ### The object store and `get_commit_data` (Script2.py lines 26-42)

For the graph and renderer claims the store is modelled at the level
`get_commit_data` observes it: a finite association list from identifier to
the decompressed commit text. Python's `FileNotFoundError` (raised by
`read_git_object` when the object file is absent) and the `IndexError` that
`line.split(" ")[1]` could raise become explicit error values. -/

inductive PyError where
  | objectNotFound (object_hash : String)
  | indexError
deriving DecidableEq

/-- Decompressed-text object store: identifier to commit text. -/
abbrev ObjStore := List (String × String)

/-- First-match lookup, the observable behaviour of reading the object file
for a hash (dict-style lookup over the finite store). -/
def lookupStore : ObjStore → String → Option String
  | [], _ => none
  | (k, v) :: rest, h => if k = h then some v else lookupStore rest h

/-- `get_commit_data` (Script2.py lines 26-42): read the object's
decompressed text, then parse it into `(parents, message)`. -/
def get_commit_data (store : ObjStore) (commit_hash : String) :
    Except PyError (List String × String) :=
  match lookupStore store commit_hash with
  | none => .error (.objectNotFound commit_hash)
  | some commit_data =>
    match parseCommit commit_data with
    | none => .error .indexError
    | some r => .ok r

/-! ### The graph builder (`get_commit_graph`, Script2.py lines 45-57) -/

/-- Outcome of the traversal: the built graph (as an insertion-ordered
association list) or a propagated error, plus the sequence of identifiers
for which `get_commit_data` was invoked (the decode log).
`fuelOut` is an artefact of the fuelled embedding of the `while` loop and
is proved unreachable. -/
inductive RunResult where
  | done (commit_graph : List (String × List String)) (decode_log : List String)
  | failed (e : PyError) (decode_log : List String)
  | fuelOut
deriving DecidableEq

/-- Membership test `current_commit not in commit_graph` on the graph's keys. -/
def hasCommitKey : List (String × List String) → String → Bool
  | [], _ => false
  | (k, _) :: rest, h => if k = h then true else hasCommitKey rest h

/-- Total parent count of the store entries whose key is not yet a graph key:
the fuel measure for the `while` loop. -/
def costOf : ObjStore → List (String × List String) → Nat
  | [], _ => 0
  | (k, txt) :: rest, g =>
    (if hasCommitKey g k then 0 else (parsedParents txt).length) + costOf rest g

/-- The `while stack:` loop of `get_commit_graph` (Script2.py lines 50-56).
`stack.pop()` takes the last element; `stack.extend(parents)` appends the
parents; an identifier already present as a graph key is skipped. -/
def graphLoop (store : ObjStore) :
    Nat → List String → List (String × List String) → List String → RunResult
  | 0, _, _, _ => .fuelOut
  | fuel + 1, stack, commit_graph, decode_log =>
    match stack.getLast? with
    | none => .done commit_graph decode_log
    | some current_commit =>
      let rest := stack.dropLast
      if hasCommitKey commit_graph current_commit then
        graphLoop store fuel rest commit_graph decode_log
      else
        match get_commit_data store current_commit with
        | .error e => .failed e (decode_log ++ [current_commit])
        | .ok (parents, _) =>
          graphLoop store fuel (rest ++ parents)
            (commit_graph ++ [(current_commit, parents)])
            (decode_log ++ [current_commit])

/-- `get_commit_graph` (Script2.py lines 45-57), run with fuel that is shown
(in `graphLoop_no_fuelOut`) to always suffice. -/
def get_commit_graph (store : ObjStore) (starting_commit_hash : String) : RunResult :=
  graphLoop store (costOf store [] + 2) [starting_commit_hash] [] []

/-- The decode log of a run (empty for the unreachable `fuelOut`). -/
def runLog : RunResult → List String
  | .done _ decode_log => decode_log
  | .failed _ decode_log => decode_log
  | .fuelOut => []

/-! ### The object store reader (`read_git_object`, Script2.py lines 10-23)

Modelled over an abstract byte type `β` with the filesystem as a finite
association list from path to content. The zlib decompression and the
UTF-8 decoding are external library facilities, passed as parameters;
their failure values are the `CorruptObject` / `DecodeError` outcomes. -/

inductive ReadError where
  | objectNotFound (object_hash : String)
  | corruptObject
  | decodeError
deriving DecidableEq

/-- The derived object path
`<repo_path>/.git/objects/<first two chars>/<remaining chars>`
(`os.path.join`, Script2.py lines 12-13). -/
def objectPath (repo_path object_hash : String) : String :=
  repo_path ++ "/.git/objects/" ++ object_hash.take 2 ++ "/" ++ object_hash.drop 2

/-- Filesystem lookup: content of the file at a path, if it exists. -/
def lookupFS {β : Type} : List (String × β) → String → Option β
  | [], _ => none
  | (k, v) :: rest, p => if k = p then some v else lookupFS rest p

/-- `read_git_object` (Script2.py lines 10-23): existence check at the
derived path (else `FileNotFoundError`), then `zlib.decompress`, then
`.decode("utf-8")`. -/
def read_git_object {β : Type} (decompress : β → Option β)
    (decodeUtf8 : β → Option String) (fs : List (String × β))
    (repo_path object_hash : String) : Except ReadError String :=
  match lookupFS fs (objectPath repo_path object_hash) with
  | none => .error (.objectNotFound object_hash)
  | some compressed_data =>
    match decompress compressed_data with
    | none => .error .corruptObject
    | some decompressed_data =>
      match decodeUtf8 decompressed_data with
      | none => .error .decodeError
      | some text => .ok text

/-! ### The renderer (`generate_plantuml_graph`, Script2.py lines 60-76) -/

/-- The f-string `participant {label} as {id}` plus newline
(Script2.py lines 71-72). -/
def participantLine (id label : String) : String :=
  "participant " ++ label ++ " as " ++ id ++ "\n"

/-- The f-string `"{parent}" --> "{commit}"` plus newline
(Script2.py line 73). -/
def edgeLine (parent commit : String) : String :=
  "\"" ++ parent ++ "\" --> \"" ++ commit ++ "\"\n"

/-- The inner `for parent in parents:` loop (Script2.py lines 67-73),
accumulating the PlantUML text and the decode log. -/
def renderParents (store : ObjStore) (commit commit_label : String) :
    List String → String → List String → Except PyError (String × List String)
  | [], plantuml_code, decode_log => .ok (plantuml_code, decode_log)
  | parent :: rest, plantuml_code, decode_log =>
    match get_commit_data store parent with
    | .error e => .error e
    | .ok (_, parent_message) =>
      let parent_label := stripAllWS parent_message
      renderParents store commit commit_label rest
        (plantuml_code ++ participantLine parent parent_label
          ++ participantLine commit commit_label ++ edgeLine parent commit)
        (decode_log ++ [parent])

/-- The outer `for commit, parents in commit_graph.items():` loop
(Script2.py lines 63-73): decode the commit once, strip its message, then
run the inner loop. -/
def renderGraphLoop (store : ObjStore) :
    List (String × List String) → String → List String →
    Except PyError (String × List String)
  | [], plantuml_code, decode_log => .ok (plantuml_code, decode_log)
  | (commit, parents) :: rest, plantuml_code, decode_log =>
    match get_commit_data store commit with
    | .error e => .error e
    | .ok (_, commit_message) =>
      match renderParents store commit (stripAllWS commit_message) parents
          plantuml_code (decode_log ++ [commit]) with
      | .error e => .error e
      | .ok (code, log) => renderGraphLoop store rest code log

/-- `generate_plantuml_graph` (Script2.py lines 60-76): start from
`"@startuml\n"`, run the loops, append `"@enduml"`. Returns the PlantUML
text together with the decode log. -/
def generate_plantuml_graph (store : ObjStore)
    (commit_graph : List (String × List String)) :
    Except PyError (String × List String) :=
  match renderGraphLoop store commit_graph "@startuml\n" [] with
  | .error e => .error e
  | .ok (code, log) => .ok (code ++ "@enduml", log)

/-- The decode log of a render run (empty on error). -/
def renderLog (r : Except PyError (String × List String)) : List String :=
  match r with
  | .ok out => out.2
  | .error _ => []

/-- The decode sequence the renderer's code performs: for each graph entry,
the commit itself followed by its parents in order. -/
def decodePlan : List (String × List String) → List String
  | [] => []
  | (commit, parents) :: rest => commit :: (parents ++ decodePlan rest)

/-! ### Statement-level string predicates -/

/-- `pat` occurs as a contiguous substring. -/
def strContains (pat s : String) : Prop := ∃ l r, s = l ++ pat ++ r

/-- `s` begins with `pre`. -/
def strBegins (pre s : String) : Prop := ∃ r, s = pre ++ r

/-- `s` ends with `suf`. -/
def strEnds (suf s : String) : Prop := ∃ l, s = l ++ suf

/-- The message the spec's reading of C4 predicts: lines after the first
empty line, each followed by a newline, with only trailing whitespace
removed. -/
def messageSpecC4 (s : String) : String :=
  String.mk (pyRStripChars (joinNL (afterEmptyLine (splitOnChar '\n' s.data))))

instance {ε α : Type} [DecidableEq ε] [DecidableEq α] : DecidableEq (Except ε α) :=
  fun x y =>
    match x, y with
    | .ok a, .ok b =>
      if h : a = b then .isTrue (by rw [h])
      else .isFalse (by intro hc; cases hc; exact h rfl)
    | .error a, .error b =>
      if h : a = b then .isTrue (by rw [h])
      else .isFalse (by intro hc; cases hc; exact h rfl)
    | .ok _, .error _ => .isFalse (by intro hc; cases hc)
    | .error _, .ok _ => .isFalse (by intro hc; cases hc)

/-! ### Basic lemmas about the string primitives -/

lemma splitOnChar_ne_nil (sep : Char) : ∀ l, splitOnChar sep l ≠ []
  | [] => by simp [splitOnChar]
  | c :: rest => by
    simp only [splitOnChar]
    split <;> simp

lemma charsStartWith_exists :
    ∀ (pre l : List Char), charsStartWith pre l = true → ∃ rest, l = pre ++ rest := by
  intro pre
  induction pre with
  | nil => exact fun l _ => ⟨l, rfl⟩
  | cons c cs ih =>
    intro l h
    cases l with
    | nil => simp [charsStartWith] at h
    | cons d ds =>
      simp only [charsStartWith] at h
      split at h
      · next hcd =>
        obtain ⟨rest, hr⟩ := ih ds h
        exact ⟨rest, by rw [hcd, hr]; rfl⟩
      · exact absurd h (by simp)

lemma splitOnChar_sep_append (sep : Char) :
    ∀ (pre rest : List Char), (∀ c ∈ pre, c ≠ sep) →
      splitOnChar sep (pre ++ sep :: rest) = pre :: splitOnChar sep rest := by
  intro pre
  induction pre with
  | nil => intro rest _; simp [splitOnChar]
  | cons c cs ih =>
    intro rest h
    have hc : c ≠ sep := h c (by simp)
    simp only [List.cons_append, splitOnChar, List.append_eq]
    rw [ih rest (fun x hx => h x (by simp [hx]))]
    rw [if_neg hc]
    simp

lemma parentTok_eq : parentTok = "parent".data ++ [' '] := by decide

lemma parentField_some (l : List Char) (h : charsStartWith parentTok l = true) :
    (splitOnChar ' ' l)[1]? = some (parentOf l) := by
  obtain ⟨rest, hr⟩ := charsStartWith_exists parentTok l h
  subst hr
  have hsplit : splitOnChar ' ' (parentTok ++ rest) =
      "parent".data :: splitOnChar ' ' rest := by
    rw [parentTok_eq, List.append_assoc, List.singleton_append]
    exact splitOnChar_sep_append ' ' "parent".data rest (by decide)
  rw [parentOf, hsplit]
  cases hx : splitOnChar ' ' rest with
  | nil => exact absurd hx (splitOnChar_ne_nil ' ' rest)
  | cons a as => simp

lemma charsStartWith_ne_nil (l : List Char) (h : charsStartWith parentTok l = true) :
    l ≠ [] := by
  intro he
  subst he
  have : charsStartWith parentTok [] = false := by decide
  rw [this] at h
  exact absurd h (by simp)

/-! ### The two modes of the parsing loop -/

lemma parseLinesC_msg (ls : List (List Char)) : ∀ ps msg,
    parseLinesC ls ps msg true = some (ps, msg ++ joinNL ls) := by
  induction ls with
  | nil => intro ps msg; simp [parseLinesC, joinNL]
  | cons l rest ih =>
    intro ps msg
    simp only [parseLinesC, if_pos rfl, joinNL]
    rw [ih]
    simp [List.append_assoc]

lemma parseLinesC_header (ls : List (List Char)) : ∀ ps msg,
    parseLinesC ls ps msg false =
      some (ps ++ headerParents ls, msg ++ joinNL (afterEmptyLine ls)) := by
  induction ls with
  | nil =>
    intro ps msg
    simp [parseLinesC, headerParents, afterEmptyLine, joinNL]
  | cons l rest ih =>
    intro ps msg
    by_cases hp : charsStartWith parentTok l = true
    · have hne : l ≠ [] := charsStartWith_ne_nil l hp
      simp only [parseLinesC, Bool.false_eq_true, if_false, if_pos hp,
        parentField_some l hp]
      rw [ih]
      simp only [headerParents, afterEmptyLine, if_pos hp, if_neg hne]
      simp [List.append_assoc]
    · by_cases he : l = []
      · subst he
        simp only [parseLinesC, Bool.false_eq_true, if_false, if_neg hp, if_pos rfl]
        rw [parseLinesC_msg]
        simp [headerParents, afterEmptyLine, hp]
      · simp only [parseLinesC, Bool.false_eq_true, if_false, if_neg hp, if_neg he]
        rw [ih]
        simp [headerParents, afterEmptyLine, if_neg hp, if_neg he]

lemma parseCommit_eq (s : String) :
    parseCommit s = some (parsedParents s, parsedMessage s) := by
  rw [parseCommit, parseLinesC_header]
  simp [parsedParents, parsedMessage]

lemma afterEmptyLine_of_no_empty :
    ∀ ls, hasEmptyLine ls = false → afterEmptyLine ls = [] := by
  intro ls
  induction ls with
  | nil => intro _; rfl
  | cons l rest ih =>
    intro h
    simp only [hasEmptyLine] at h
    simp only [afterEmptyLine]
    split at h
    · exact absurd h (by simp)
    · next hne => rw [if_neg hne]; exact ih h

/-! ### Claim theorems about the commit parser -/

/-- Claim C10: the header parsing of `get_commit_data` is total over the
decompressed text: for every input string it returns without raising, and a
header line consisting of exactly `parent ` contributes the empty string as
a parent identifier. -/
theorem parseCommit_total :
    (∀ s : String, (parseCommit s).isSome = true) ∧
      parseCommit "parent " = some ([""], "") := by
  constructor
  · intro s
    rw [parseCommit_eq]
    rfl
  · rw [parseCommit_eq]
    decide

/-- Claim C5: for decompressed commit text with no empty line anywhere,
`get_commit_data`'s parser does not fail: it returns the parents from the
`parent `-prefixed lines as usual and the empty string as message. -/
theorem parseCommit_no_empty_line (s : String)
    (h : hasEmptyLine (splitOnChar '\n' s.data) = false) :
    parseCommit s = some (parsedParents s, "") := by
  rw [parseCommit_eq, parsedMessage, afterEmptyLine_of_no_empty _ h]
  rfl

/-- Witness for `parseCommit_no_empty_line` at the commit text
`tree x` + newline + `parent ab`, which contains no empty line. -/
theorem parseCommit_no_empty_line_witness :
    parseCommit "tree x\nparent ab" =
      some (parsedParents "tree x\nparent ab", "") :=
  parseCommit_no_empty_line "tree x\nparent ab" (by decide)

/-- Claim C4 counterexample: the claim says only trailing whitespace of the
message is removed and leading whitespace is preserved, but the code calls
Python `message.strip()`, which strips both ends. On the text consisting of
an empty line followed by the line ` x`, the claim predicts the message
` x` (as `messageSpecC4` computes) while `parseCommit` returns `x`. -/
theorem parseCommit_message_strips_leading :
    hasEmptyLine (splitOnChar '\n' ("\n x").data) = true ∧
      parseCommit "\n x" = some ([], "x") ∧
      messageSpecC4 "\n x" = " x" ∧
      ("x" : String) ≠ " x" := by
  refine ⟨by decide, ?_, by decide, by decide⟩
  rw [parseCommit_eq]
  decide

/-- Claim C4 as amended: for every decompressed commit text containing an
empty line, the message returned equals the concatenation of all lines after
the first empty line, each followed by a newline, with leading and trailing
whitespace/newlines removed (Python `str.strip()` trims both ends). -/
theorem parseCommit_message_join_strip (s : String)
    (_h : hasEmptyLine (splitOnChar '\n' s.data) = true) :
    parseCommit s =
      some (parsedParents s,
        String.mk (pyStripChars (joinNL (afterEmptyLine (splitOnChar '\n' s.data))))) :=
  parseCommit_eq s

/-- Witness for `parseCommit_message_join_strip` at the text
`subject` preceded by a blank separator line. -/
theorem parseCommit_message_join_strip_witness :
    parseCommit "\nsubject\n" =
      some (parsedParents "\nsubject\n",
        String.mk (pyStripChars (joinNL (afterEmptyLine
          (splitOnChar '\n' ("\nsubject\n").data))))) :=
  parseCommit_message_join_strip "\nsubject\n" (by decide)

/-! ### Graph-builder lemmas -/

lemma hasCommitKey_append (g : List (String × List String)) (k : String)
    (ps : List String) (x : String) :
    hasCommitKey (g ++ [(k, ps)]) x = (hasCommitKey g x || decide (k = x)) := by
  induction g with
  | nil => simp [hasCommitKey]
  | cons e rest ih =>
    obtain ⟨a, b⟩ := e
    simp only [List.cons_append, hasCommitKey]
    by_cases hax : a = x
    · simp [hax]
    · rw [if_neg hax, if_neg hax]
      exact ih

lemma costOf_mono (store : ObjStore) (g g' : List (String × List String))
    (h : ∀ x, hasCommitKey g x = true → hasCommitKey g' x = true) :
    costOf store g' ≤ costOf store g := by
  induction store with
  | nil => exact Nat.le_refl 0
  | cons e rest ih =>
    obtain ⟨k, txt⟩ := e
    simp only [costOf]
    apply Nat.add_le_add ?_ ih
    by_cases hk : hasCommitKey g k = true
    · simp [hk, h k hk]
    · simp only [hk, if_false]
      split <;> simp

lemma costOf_insert (store : ObjStore) (g : List (String × List String))
    (k : String) (txt : String) (ps : List String)
    (hl : lookupStore store k = some txt) (hk : hasCommitKey g k = false) :
    costOf store (g ++ [(k, ps)]) + (parsedParents txt).length ≤ costOf store g := by
  induction store with
  | nil => exact absurd hl (by simp [lookupStore])
  | cons e rest ih =>
    obtain ⟨a, b⟩ := e
    simp only [lookupStore] at hl
    simp only [costOf]
    by_cases hak : a = k
    · subst hak
      rw [if_pos rfl] at hl
      injection hl with hb
      subst hb
      have h1 : hasCommitKey (g ++ [(a, ps)]) a = true := by
        rw [hasCommitKey_append, hk]
        simp
      have hm : costOf rest (g ++ [(a, ps)]) ≤ costOf rest g := by
        apply costOf_mono
        intro x hx
        rw [hasCommitKey_append, hx, Bool.true_or]
      rw [if_pos h1, if_neg (by simp [hk])]
      omega
    · rw [if_neg hak] at hl
      have hrec := ih hl
      by_cases hga : hasCommitKey g a = true
      · rw [if_pos (by rw [hasCommitKey_append, hga, Bool.true_or]), if_pos hga]
        omega
      · have hnot : ¬hasCommitKey (g ++ [(k, ps)]) a = true := by
          rw [hasCommitKey_append]
          simp only [Bool.or_eq_true, decide_eq_true_eq]
          rintro (hc | hc)
          · exact hga hc
          · exact hak hc.symm
        rw [if_neg hnot, if_neg hga]
        omega

lemma get_commit_data_eq (store : ObjStore) (h : String) :
    get_commit_data store h =
      match lookupStore store h with
      | none => .error (.objectNotFound h)
      | some txt => .ok (parsedParents txt, parsedMessage txt) := by
  rw [get_commit_data]
  cases lookupStore store h with
  | none => rfl
  | some txt => simp only [parseCommit_eq]

lemma get_commit_data_ok (store : ObjStore) (h : String) (parents : List String)
    (msg : String) (hgc : get_commit_data store h = .ok (parents, msg)) :
    ∃ txt, lookupStore store h = some txt ∧ parsedParents txt = parents := by
  rw [get_commit_data_eq] at hgc
  cases hl : lookupStore store h with
  | none => rw [hl] at hgc; exact absurd hgc (by simp)
  | some txt =>
    rw [hl] at hgc
    simp only [Except.ok.injEq, Prod.mk.injEq] at hgc
    exact ⟨txt, rfl, hgc.1⟩

lemma graphLoop_no_fuelOut (store : ObjStore) :
    ∀ fuel stack (g : List (String × List String)) log,
      stack.length + costOf store g + 1 ≤ fuel →
      graphLoop store fuel stack g log ≠ .fuelOut := by
  intro fuel
  induction fuel with
  | zero => intro stack g log h; omega
  | succ fuel ih =>
    intro stack g log h
    simp only [graphLoop]
    cases hst : stack.getLast? with
    | none => simp
    | some current =>
      have hsne : stack ≠ [] := by
        intro he; subst he; simp [List.getLast?] at hst
      have hlen : stack.dropLast.length + 1 = stack.length := by
        rw [List.length_dropLast]
        have := List.length_pos.mpr hsne
        omega
      dsimp only
      by_cases hkey : hasCommitKey g current = true
      · rw [if_pos hkey]
        exact ih _ _ _ (by omega)
      · rw [if_neg hkey]
        cases hgc : get_commit_data store current with
        | error e => simp
        | ok pr =>
          obtain ⟨parents, msg⟩ := pr
          obtain ⟨txt, hl, hpp⟩ := get_commit_data_ok store current parents msg hgc
          have hcost := costOf_insert store g current txt parents hl
            (by simpa using hkey)
          rw [hpp] at hcost
          exact ih _ _ _ (by rw [List.length_append]; omega)

lemma runLog_nodup (store : ObjStore) :
    ∀ fuel stack (g : List (String × List String)) log,
      log.Nodup → (∀ x ∈ log, hasCommitKey g x = true) →
      (runLog (graphLoop store fuel stack g log)).Nodup := by
  intro fuel
  induction fuel with
  | zero => intro stack g log _ _; simp [graphLoop, runLog]
  | succ fuel ih =>
    intro stack g log hnd hsub
    simp only [graphLoop]
    cases hst : stack.getLast? with
    | none => exact hnd
    | some current =>
      dsimp only
      by_cases hkey : hasCommitKey g current = true
      · rw [if_pos hkey]
        exact ih _ _ _ hnd hsub
      · rw [if_neg hkey]
        have hcur : current ∉ log := fun hc => hkey (hsub current hc)
        have hnd' : (log ++ [current]).Nodup := by
          rw [List.nodup_append]
          exact ⟨hnd, List.nodup_singleton current, by simpa using hcur⟩
        cases hgc : get_commit_data store current with
        | error e => exact hnd'
        | ok pr =>
          obtain ⟨parents, msg⟩ := pr
          have hsub' : ∀ x ∈ log ++ [current],
              hasCommitKey (g ++ [(current, parents)]) x = true := by
            intro x hx
            rw [hasCommitKey_append]
            rcases List.mem_append.mp hx with hxl | hxc
            · rw [hsub x hxl, Bool.true_or]
            · simp only [List.mem_singleton] at hxc
              subst hxc
              simp
          exact ih _ _ _ hnd' hsub'

lemma graphLoop_succ (store : ObjStore) (fuel : Nat) (stack : List String)
    (g : List (String × List String)) (log : List String) :
    graphLoop store (fuel + 1) stack g log =
      match stack.getLast? with
      | none => .done g log
      | some current =>
        if hasCommitKey g current then
          graphLoop store fuel stack.dropLast g log
        else
          match get_commit_data store current with
          | .error e => .failed e (log ++ [current])
          | .ok (parents, _) =>
            graphLoop store fuel (stack.dropLast ++ parents)
              (g ++ [(current, parents)]) (log ++ [current]) := rfl

/-! ### Claim theorems about the graph builder -/

/-- Claim C3: for every finite object store (cyclic or diamond-shaped parent
links included) and every starting identifier, the work-stack loop of
`get_commit_graph` terminates: the fuelled loop never exhausts its fuel,
because each identifier is added to the graph at most once and parents are
pushed only when a new identifier is added. -/
theorem get_commit_graph_terminates (store : ObjStore)
    (starting_commit_hash : String) :
    get_commit_graph store starting_commit_hash ≠ RunResult.fuelOut := by
  apply graphLoop_no_fuelOut
  simp only [List.length_singleton]
  omega

/-- Claim C2: during any single run of `get_commit_graph`, each identifier
is submitted to the read-and-decode step (`get_commit_data`, hence
`read_git_object`) at most once, even on diamond-shaped histories: the
decode log of the run counts every identifier at most once. -/
theorem get_commit_graph_decodes_once (store : ObjStore)
    (starting_commit_hash id : String) :
    (runLog (get_commit_graph store starting_commit_hash)).count id ≤ 1 := by
  have h := runLog_nodup store (costOf store [] + 2) [starting_commit_hash] [] []
    List.nodup_nil (by intro x hx; simp at hx)
  exact List.nodup_iff_count_le_one.mp h id

/-- Claim C1: on a store holding exactly commit `a` with single parent `b`
and commit `b` with no parents, `get_commit_graph` started at `a` returns
exactly the graph mapping `a` to `[b]` and `b` to `[]`, with no other keys
(and the decode log is `[a, b]`). -/
theorem get_commit_graph_two_commits (a b tA tB : String)
    (hab : a ≠ b) (hA : parsedParents tA = [b]) (hB : parsedParents tB = []) :
    get_commit_graph [(a, tA), (b, tB)] a =
      RunResult.done [(a, [b]), (b, [])] [a, b] := by
  have hga : get_commit_data [(a, tA), (b, tB)] a = .ok ([b], parsedMessage tA) := by
    rw [get_commit_data_eq]
    simp [lookupStore, hA]
  have hgb : get_commit_data [(a, tA), (b, tB)] b = .ok ([], parsedMessage tB) := by
    rw [get_commit_data_eq]
    simp [lookupStore, hab, hB]
  have hfuel : costOf [(a, tA), (b, tB)] ([] : List (String × List String)) + 2 = 3 := by
    simp [costOf, hasCommitKey, hA, hB]
  rw [get_commit_graph, hfuel]
  rw [show (3 : Nat) = 2 + 1 from rfl, graphLoop_succ]
  simp only [show ([a].getLast? = some a) from rfl,
    show [a].dropLast = ([] : List String) from rfl]
  rw [if_neg (by simp [hasCommitKey]), hga]
  simp only [List.nil_append]
  rw [show (2 : Nat) = 1 + 1 from rfl, graphLoop_succ]
  simp only [show ([b].getLast? = some b) from rfl,
    show [b].dropLast = ([] : List String) from rfl]
  rw [if_neg (by simp [hasCommitKey, hab]), hgb]
  rw [show (1 : Nat) = 0 + 1 from rfl]
  dsimp only
  rw [graphLoop_succ]
  simp

/-- Witness for `get_commit_graph_two_commits` on a concrete two-commit
store. -/
theorem get_commit_graph_two_commits_witness :
    get_commit_graph [("aa", "parent bb\n\nm1"), ("bb", "\n\nm2")] "aa" =
      RunResult.done [("aa", ["bb"]), ("bb", [])] ["aa", "bb"] :=
  get_commit_graph_two_commits "aa" "bb" "parent bb\n\nm1" "\n\nm2"
    (by decide) (by decide) (by decide)

/-! ### Claim theorems about the object store reader -/

/-- Claim C6: `read_git_object` fails with `ObjectNotFound` (and no other
error type) exactly when no file exists at the derived path
`<root>/.git/objects/<first two chars>/<remaining chars>`; when the file
exists and holds valid compressed UTF-8 text, it returns the decompressed
content. -/
theorem read_git_object_not_found_iff {β : Type} (decompress : β → Option β)
    (decodeUtf8 : β → Option String) (fs : List (String × β))
    (repo_path object_hash : String) :
    ((read_git_object decompress decodeUtf8 fs repo_path object_hash =
        .error (.objectNotFound object_hash)) ↔
      lookupFS fs (objectPath repo_path object_hash) = none) ∧
    (∀ b d text, lookupFS fs (objectPath repo_path object_hash) = some b →
      decompress b = some d → decodeUtf8 d = some text →
      read_git_object decompress decodeUtf8 fs repo_path object_hash = .ok text) := by
  constructor
  · rw [read_git_object]
    split
    · next hfs => simp [hfs]
    · next b hfs =>
      rw [hfs]
      split
      · simp
      · split
        · simp
        · simp
  · intro b d text hb hd htext
    rw [read_git_object, hb]
    dsimp only
    rw [hd]
    dsimp only
    rw [htext]

/-- Witness for `read_git_object_not_found_iff`: on a one-file store whose
entry sits at the derived path and decodes to `t`, the reader returns
`Except.ok t`. -/
theorem read_git_object_not_found_iff_witness :
    read_git_object (fun n : Nat => some n) (fun _ => some "t")
      [(objectPath "r" "abcd", 5)] "r" "abcd" = .ok "t" :=
  (read_git_object_not_found_iff (fun n : Nat => some n) (fun _ => some "t")
      [(objectPath "r" "abcd", 5)] "r" "abcd").2
    5 5 "t" (by simp [lookupFS]) rfl rfl

/-- Claim C7: round-trip. For any compression/decompression pair and any
UTF-8 encode/decode pair that invert each other, writing the compressed
encoding of a text at the path derived from an identifier and then calling
`read_git_object` with that identifier returns the original text. -/
theorem read_git_object_roundtrip {β : Type} (compress : β → β)
    (decompress : β → Option β) (encodeUtf8 : String → β)
    (decodeUtf8 : β → Option String)
    (hz : ∀ buf, decompress (compress buf) = some buf)
    (hu : ∀ s, decodeUtf8 (encodeUtf8 s) = some s)
    (fs : List (String × β)) (repo_path object_hash text : String) :
    read_git_object decompress decodeUtf8
      ((objectPath repo_path object_hash, compress (encodeUtf8 text)) :: fs)
      repo_path object_hash = .ok text := by
  rw [read_git_object]
  rw [show lookupFS ((objectPath repo_path object_hash,
        compress (encodeUtf8 text)) :: fs) (objectPath repo_path object_hash) =
      some (compress (encodeUtf8 text)) from by rw [lookupFS, if_pos rfl]]
  dsimp only
  rw [hz]
  dsimp only
  rw [hu]

/-- Witness for `read_git_object_roundtrip` with the identity codec on
`String` contents. -/
theorem read_git_object_roundtrip_witness :
    read_git_object (fun s : String => some s) (fun s : String => some s)
      [(objectPath "r" "abcd", "hello")] "r" "abcd" = .ok "hello" :=
  read_git_object_roundtrip (fun s => s) (fun s => some s) (fun s => s)
    (fun s => some s) (fun _ => rfl) (fun _ => rfl) [] "r" "abcd" "hello"

/-! ### Renderer lemmas -/

lemma string_append_assoc (s t u : String) : s ++ t ++ u = s ++ (t ++ u) := by
  cases s with
  | mk a =>
    cases t with
    | mk b =>
      cases u with
      | mk c =>
        show String.mk (a ++ b ++ c) = String.mk (a ++ (b ++ c))
        rw [List.append_assoc]

lemma string_append_empty (s : String) : s ++ "" = s := by
  cases s with
  | mk a =>
    show String.mk (a ++ []) = String.mk a
    rw [List.append_nil]

lemma strContains_extend (pat s s' t : String) (h : strContains pat s)
    (heq : s' = s ++ t) : strContains pat s' := by
  obtain ⟨l, r, hr⟩ := h
  exact ⟨l, r ++ t, by rw [heq, hr]; simp [string_append_assoc]⟩

lemma renderParents_ok_log (store : ObjStore) (commit commit_label : String) :
    ∀ ps code log out,
      renderParents store commit commit_label ps code log = .ok out →
      out.2 = log ++ ps := by
  intro ps
  induction ps with
  | nil =>
    intro code log out h
    injection h with h'
    rw [← h']
    simp
  | cons p rest ih =>
    intro code log out h
    cases hgc : get_commit_data store p with
    | error e =>
      simp only [renderParents, hgc] at h
      exact absurd h (by simp)
    | ok pr =>
      obtain ⟨pr1, pm⟩ := pr
      simp only [renderParents, hgc] at h
      rw [ih _ _ _ h]
      simp

lemma renderParents_ok_extends (store : ObjStore) (commit commit_label : String) :
    ∀ ps code log out,
      renderParents store commit commit_label ps code log = .ok out →
      ∃ t, out.1 = code ++ t := by
  intro ps
  induction ps with
  | nil =>
    intro code log out h
    injection h with h'
    exact ⟨"", by rw [← h', string_append_empty]⟩
  | cons p rest ih =>
    intro code log out h
    cases hgc : get_commit_data store p with
    | error e =>
      simp only [renderParents, hgc] at h
      exact absurd h (by simp)
    | ok pr =>
      obtain ⟨pr1, pm⟩ := pr
      simp only [renderParents, hgc] at h
      obtain ⟨t, ht⟩ := ih _ _ _ h
      refine ⟨participantLine p (stripAllWS pm) ++ participantLine commit commit_label
        ++ edgeLine p commit ++ t, ?_⟩
      rw [ht]
      simp [string_append_assoc]

lemma renderParents_ok_contains (store : ObjStore) (commit commit_label : String) :
    ∀ ps code log out p, p ∈ ps →
      renderParents store commit commit_label ps code log = .ok out →
      ∃ pr pm, get_commit_data store p = .ok (pr, pm) ∧
        strContains (participantLine p (stripAllWS pm)) out.1 ∧
        strContains (participantLine commit commit_label) out.1 ∧
        strContains (edgeLine p commit) out.1 := by
  intro ps
  induction ps with
  | nil => intro code log out p hp _; exact absurd hp (List.not_mem_nil p)
  | cons q rest ih =>
    intro code log out p hp h
    cases hgc : get_commit_data store q with
    | error e =>
      simp only [renderParents, hgc] at h
      exact absurd h (by simp)
    | ok pr0 =>
      obtain ⟨qr, qm⟩ := pr0
      simp only [renderParents, hgc] at h
      rcases List.mem_cons.mp hp with hq | hrest
      · subst hq
        obtain ⟨t, ht⟩ := renderParents_ok_extends store commit commit_label rest _ _ out h
        refine ⟨qr, qm, hgc, ?_, ?_, ?_⟩
        · refine ⟨code, participantLine commit commit_label ++ edgeLine p commit ++ t, ?_⟩
          rw [ht]
          simp [string_append_assoc]
        · refine ⟨code ++ participantLine p (stripAllWS qm),
            edgeLine p commit ++ t, ?_⟩
          rw [ht]
          simp [string_append_assoc]
        · refine ⟨code ++ participantLine p (stripAllWS qm)
            ++ participantLine commit commit_label, t, ?_⟩
          rw [ht]
      · exact ih _ _ _ p hrest h

lemma renderGraphLoop_ok_extends (store : ObjStore) :
    ∀ graph code log out,
      renderGraphLoop store graph code log = .ok out →
      ∃ t, out.1 = code ++ t := by
  intro graph
  induction graph with
  | nil =>
    intro code log out h
    injection h with h'
    exact ⟨"", by rw [← h', string_append_empty]⟩
  | cons e rest ih =>
    obtain ⟨c0, ps0⟩ := e
    intro code log out h
    cases hgc : get_commit_data store c0 with
    | error e' =>
      simp only [renderGraphLoop, hgc] at h
      exact absurd h (by simp)
    | ok pr0 =>
      obtain ⟨cr0, cm0⟩ := pr0
      simp only [renderGraphLoop, hgc] at h
      cases hrp : renderParents store c0 (stripAllWS cm0) ps0 code (log ++ [c0]) with
      | error e' => rw [hrp] at h; exact absurd h (by simp)
      | ok mid =>
        obtain ⟨midc, midl⟩ := mid
        rw [hrp] at h
        obtain ⟨t1, ht1⟩ := renderParents_ok_extends store c0 (stripAllWS cm0)
          ps0 code (log ++ [c0]) (midc, midl) hrp
        simp only at ht1
        obtain ⟨t2, ht2⟩ := ih _ _ _ h
        exact ⟨t1 ++ t2, by rw [ht2, ht1, string_append_assoc]⟩

lemma renderGraphLoop_ok_log (store : ObjStore) :
    ∀ graph code log out,
      renderGraphLoop store graph code log = .ok out →
      out.2 = log ++ decodePlan graph := by
  intro graph
  induction graph with
  | nil =>
    intro code log out h
    injection h with h'
    rw [← h']
    simp [decodePlan]
  | cons e rest ih =>
    obtain ⟨c0, ps0⟩ := e
    intro code log out h
    cases hgc : get_commit_data store c0 with
    | error e' =>
      simp only [renderGraphLoop, hgc] at h
      exact absurd h (by simp)
    | ok pr0 =>
      obtain ⟨cr0, cm0⟩ := pr0
      simp only [renderGraphLoop, hgc] at h
      cases hrp : renderParents store c0 (stripAllWS cm0) ps0 code (log ++ [c0]) with
      | error e' => rw [hrp] at h; exact absurd h (by simp)
      | ok mid =>
        obtain ⟨midc, midl⟩ := mid
        rw [hrp] at h
        have h2 := ih _ _ _ h
        have h3 := renderParents_ok_log store c0 (stripAllWS cm0) ps0
          code (log ++ [c0]) (midc, midl) hrp
        rw [h2]
        simp only at h3
        rw [h3]
        simp [decodePlan, List.append_assoc]

lemma renderGraphLoop_ok_entry (store : ObjStore) :
    ∀ graph code log out c ps, (c, ps) ∈ graph →
      renderGraphLoop store graph code log = .ok out →
      ∃ cr cm, get_commit_data store c = .ok (cr, cm) ∧
        ∀ p ∈ ps, ∃ pr pm, get_commit_data store p = .ok (pr, pm) ∧
          strContains (participantLine p (stripAllWS pm)) out.1 ∧
          strContains (participantLine c (stripAllWS cm)) out.1 ∧
          strContains (edgeLine p c) out.1 := by
  intro graph
  induction graph with
  | nil => intro code log out c ps hmem _; exact absurd hmem (List.not_mem_nil _)
  | cons e rest ih =>
    obtain ⟨c0, ps0⟩ := e
    intro code log out c ps hmem h
    cases hgc : get_commit_data store c0 with
    | error e' =>
      simp only [renderGraphLoop, hgc] at h
      exact absurd h (by simp)
    | ok pr0 =>
      obtain ⟨cr0, cm0⟩ := pr0
      simp only [renderGraphLoop, hgc] at h
      cases hrp : renderParents store c0 (stripAllWS cm0) ps0 code (log ++ [c0]) with
      | error e' => rw [hrp] at h; exact absurd h (by simp)
      | ok mid =>
        obtain ⟨midc, midl⟩ := mid
        rw [hrp] at h
        rcases List.mem_cons.mp hmem with heq | hmem'
        · obtain ⟨hc, hps⟩ := Prod.mk.injEq .. ▸ heq
          subst hc
          subst hps
          refine ⟨cr0, cm0, hgc, ?_⟩
          intro p hp
          obtain ⟨pr, pm, hgp, h1, h2, h3⟩ := renderParents_ok_contains store c
            (stripAllWS cm0) ps code (log ++ [c]) (midc, midl) p hp hrp
          obtain ⟨t, ht⟩ := renderGraphLoop_ok_extends store rest midc midl out h
          exact ⟨pr, pm, hgp,
            strContains_extend _ _ _ t h1 ht,
            strContains_extend _ _ _ t h2 ht,
            strContains_extend _ _ _ t h3 ht⟩
        · exact ih _ _ _ c ps hmem' h

/-! ### Claim theorems about the renderer -/

/-- Claim C8: the PlantUML text returned by `generate_plantuml_graph`
begins with `@startuml` and ends with `@enduml`, and for every
(parent, child) edge of the graph it contains a
`participant <label> as <identifier>` line for the parent and for the
child (each label being the commit's decoded message with all whitespace
removed) and a `"<parentId>" --> "<childId>"` line. -/
theorem generate_plantuml_structure (store : ObjStore)
    (commit_graph : List (String × List String)) (out : String × List String)
    (h : generate_plantuml_graph store commit_graph = .ok out) :
    strBegins "@startuml" out.1 ∧ strEnds "@enduml" out.1 ∧
    ∀ c ps p, (c, ps) ∈ commit_graph → p ∈ ps →
      ∃ cr cm pr pm, get_commit_data store c = .ok (cr, cm) ∧
        get_commit_data store p = .ok (pr, pm) ∧
        strContains (participantLine p (stripAllWS pm)) out.1 ∧
        strContains (participantLine c (stripAllWS cm)) out.1 ∧
        strContains (edgeLine p c) out.1 := by
  rw [generate_plantuml_graph] at h
  cases hrg : renderGraphLoop store commit_graph "@startuml\n" [] with
  | error e => rw [hrg] at h; exact absurd h (by simp)
  | ok res =>
    obtain ⟨code, log⟩ := res
    rw [hrg] at h
    injection h with h'
    obtain ⟨t, ht⟩ := renderGraphLoop_ok_extends store commit_graph _ _ _ hrg
    simp only at ht
    refine ⟨?_, ?_, ?_⟩
    · rw [← h']
      refine ⟨"\n" ++ (t ++ "@enduml"), ?_⟩
      show code ++ "@enduml" = _
      rw [ht, string_append_assoc,
        show ("@startuml\n" : String) = "@startuml" ++ "\n" from rfl,
        string_append_assoc]
    · rw [← h']
      exact ⟨code, rfl⟩
    · intro c ps p hcps hp
      obtain ⟨cr, cm, hgc, hall⟩ :=
        renderGraphLoop_ok_entry store commit_graph _ _ _ c ps hcps hrg
      obtain ⟨pr, pm, hgp, h1, h2, h3⟩ := hall p hp
      rw [← h']
      exact ⟨cr, cm, pr, pm, hgc, hgp,
        strContains_extend _ _ _ "@enduml" h1 rfl,
        strContains_extend _ _ _ "@enduml" h2 rfl,
        strContains_extend _ _ _ "@enduml" h3 rfl⟩

/-- Witness for `generate_plantuml_structure` on a store with commits `a`
(message `Am`, parent `b`) and `b` (message `B`) and the graph with the
single edge from parent `b` to child `a`. -/
theorem generate_plantuml_structure_witness :
    strBegins "@startuml"
      "@startuml\nparticipant B as b\nparticipant Am as a\n\"b\" --> \"a\"\n@enduml" ∧
    strEnds "@enduml"
      "@startuml\nparticipant B as b\nparticipant Am as a\n\"b\" --> \"a\"\n@enduml" ∧
    ∀ c ps p, (c, ps) ∈ ([("a", ["b"])] : List (String × List String)) → p ∈ ps →
      ∃ cr cm pr pm,
        get_commit_data [("a", "\nAm"), ("b", "\nB")] c = .ok (cr, cm) ∧
        get_commit_data [("a", "\nAm"), ("b", "\nB")] p = .ok (pr, pm) ∧
        strContains (participantLine p (stripAllWS pm))
          "@startuml\nparticipant B as b\nparticipant Am as a\n\"b\" --> \"a\"\n@enduml" ∧
        strContains (participantLine c (stripAllWS cm))
          "@startuml\nparticipant B as b\nparticipant Am as a\n\"b\" --> \"a\"\n@enduml" ∧
        strContains (edgeLine p c)
          "@startuml\nparticipant B as b\nparticipant Am as a\n\"b\" --> \"a\"\n@enduml" :=
  generate_plantuml_structure [("a", "\nAm"), ("b", "\nB")] [("a", ["b"])]
    ("@startuml\nparticipant B as b\nparticipant Am as a\n\"b\" --> \"a\"\n@enduml",
      ["a", "b"]) (by decide)

/-- Claim C9 counterexample: the claim says that for each (commit, parents)
entry and for each parent in it, the renderer decodes both the commit and
the parent (one commit-decode and one parent-decode per parent). On the
graph with the single entry mapping `a` to the two parents `b`, `c`, that
predicts two decodes of `a`; the code hoists the commit decode out of the
inner loop, so its decode log is `[a, b, c]`, in which `a` occurs once,
not once per parent. -/
theorem generate_plantuml_commit_decode_count :
    renderLog (generate_plantuml_graph [("a", ""), ("b", ""), ("c", "")]
        [("a", ["b", "c"])]) = ["a", "b", "c"] ∧
    (renderLog (generate_plantuml_graph [("a", ""), ("b", ""), ("c", "")]
        [("a", ["b", "c"])])).count "a" = 1 ∧
    ¬ (renderLog (generate_plantuml_graph [("a", ""), ("b", ""), ("c", "")]
        [("a", ["b", "c"])])).count "a" = (["b", "c"] : List String).length := by
  refine ⟨by decide, by decide, by decide⟩

/-- Claim C9 as amended: during `generate_plantuml_graph`, for each
(commit, parents) entry of the graph the renderer decodes the commit's
object once (before iterating the parents) and then each parent's object
once per occurrence in the parent sequence; the full decode log is exactly
each entry's commit followed by its parents, in graph order. -/
theorem generate_plantuml_decode_log (store : ObjStore)
    (commit_graph : List (String × List String)) (out : String × List String)
    (h : generate_plantuml_graph store commit_graph = .ok out) :
    out.2 = decodePlan commit_graph := by
  rw [generate_plantuml_graph] at h
  cases hrg : renderGraphLoop store commit_graph "@startuml\n" [] with
  | error e => rw [hrg] at h; exact absurd h (by simp)
  | ok res =>
    obtain ⟨code, log⟩ := res
    rw [hrg] at h
    injection h with h'
    have h3 := renderGraphLoop_ok_log store commit_graph _ _ _ hrg
    simp only at h3
    rw [← h']
    simpa using h3

/-- Witness for `generate_plantuml_decode_log` on a one-entry graph whose
commit has no parents: the log is `[a]`, i.e. the commit is decoded even
though there is no (commit, parent) pair. -/
theorem generate_plantuml_decode_log_witness :
    (("@startuml\n@enduml", ["a"]) : String × List String).2 =
      decodePlan [("a", ([] : List String))] :=
  generate_plantuml_decode_log [("a", "")] [("a", [])]
    ("@startuml\n@enduml", ["a"]) (by decide)

end Script2
